import Mathlib

/-!
Shallow embedding of `src/minbpe.c`, a minimal byte-pair-encoding (BPE)
tokenizer. Texts and decoded outputs are lists of byte values (`List Nat`,
each element the value of one `unsigned char`); token ids are `Nat`.
C's `(unsigned char)` casts appear as `% 256`. Out-of-bounds array reads
(which are undefined behavior in the C source) are modelled with `Option`.
-/

set_option maxRecDepth 100000

namespace MinBpe

/-- Embeds the C struct `Merge`: a pair of token ids and the id that
replaces it. -/
structure Merge where
  pair : Nat × Nat
  idx : Nat
deriving DecidableEq, Repr

/-- Embeds the C struct `BasicTokenizer`. `merges` is the contents of the
`merges` array, `num_merges` the struct field of that name (which the C
source sets to 0 in `create_tokenizer` and never assigns afterwards),
`vocab` the per-id byte expansions, `vocab_size` the struct field of that
name. -/
structure Tokenizer where
  merges : List Merge
  num_merges : Nat
  vocab : List (List Nat)
  vocab_size : Nat
deriving DecidableEq, Repr

/-- The initial 256 single-byte vocabulary entries installed by
`create_tokenizer`. -/
def base_vocab : List (List Nat) :=
  (List.range 256).map (fun b => [b])

/-- Embeds `create_tokenizer`: empty merge list, `num_merges = 0`,
vocabulary of the 256 single-byte expansions, `vocab_size = 256`. -/
def create_tokenizer : Tokenizer :=
  { merges := [], num_merges := 0, vocab := base_vocab, vocab_size := 256 }

/-- The adjacent pairs `(ids[i], ids[i+1])` of a sequence, in order. -/
def adjacent_pairs (ids : List Nat) : List (Nat × Nat) :=
  ids.zip ids.tail

/-- One step of the C `token_counts` loop: find the pair in the
accumulated `(pair, count)` table (a linear scan, as `find_pair_index`
does over the table) and increment it, or append it with count 1. -/
def bump (table : List ((Nat × Nat) × Nat)) (p : Nat × Nat) :
    List ((Nat × Nat) × Nat) :=
  match table with
  | [] => [(p, 1)]
  | (q, c) :: rest =>
      if q = p then (q, c + 1) :: rest else (q, c) :: bump rest p

/-- Embeds `token_counts`: the `(pair, count)` table over all adjacent
pairs, in first-occurrence order. (The C version has undefined behavior
for `ids_size = 0` because `ids_size - 1` underflows; the embedding
covers the sequences the program actually passes, which are nonempty,
and returns the empty table for `[]`.) -/
def token_counts (ids : List Nat) : List ((Nat × Nat) × Nat) :=
  (adjacent_pairs ids).foldl bump []

/-- Embeds `find_pair_index`: index of the first entry of `merges` whose
pair equals `p`, or `merges.length` when absent. -/
def find_pair_index : List Merge → (Nat × Nat) → Nat
  | [], _ => 0
  | m :: rest, p => if m.pair = p then 0 else find_pair_index rest p + 1

/-- Embeds `merge`: replace non-overlapping occurrences of `p` by `idx`,
scanning left to right (the C loop's guard `i < ids_size - 1` is the
existence of a next element). -/
def merge : List Nat → (Nat × Nat) → Nat → List Nat
  | x :: y :: rest, p, idx =>
      if x = p.1 ∧ y = p.2 then idx :: merge rest p idx
      else x :: merge (y :: rest) p idx
  | l, _, _ => l

/-- One step of the selection scan of `train` (lines 101-108): keep the
entry with the strictly greater count, so the first-counted pair wins
ties. -/
def pick_max (best pc : (Nat × Nat) × Nat) : (Nat × Nat) × Nat :=
  if pc.2 > best.2 then pc else best

/-- Embeds the selection scan of `train` (lines 99-108): running maximum
of the counts; the C initial state `max_count = 0`, `best_pair = {0,0}`
is the fold's initial accumulator. -/
def select_max (counts : List ((Nat × Nat) × Nat)) : (Nat × Nat) × Nat :=
  counts.foldl pick_max ((0, 0), 0)

/-- Embeds the training loop of `train` (lines 94-126), one recursive
call per loop iteration: count pairs, pick the maximum, stop when
`max_count = 0`, otherwise merge, record the rule `(best_pair, idx)` with
`idx = 256 + merges.length` (the C `INITIAL_VOCAB_SIZE + i`), and append
the vocabulary entry `[first mod 256, second mod 256]` (the C stores the
pair components through `unsigned char`). Returns the final working
sequence, the vocabulary and the recorded merges. -/
def train_loop : Nat → List Nat → List (List Nat) → List Merge →
    List Nat × List (List Nat) × List Merge
  | 0, ids, vocab, merges => (ids, vocab, merges)
  | n + 1, ids, vocab, merges =>
      let best := select_max (token_counts ids)
      if best.2 = 0 then (ids, vocab, merges)
      else
        let idx := 256 + merges.length
        train_loop n (merge ids best.1 idx)
          (vocab ++ [[best.1.1 % 256, best.1.2 % 256]])
          (merges ++ [⟨best.1, idx⟩])

/-- Embeds `train`: convert the text to byte ids, run the loop for
`vocab_size - 256` iterations starting from a fresh merge array, and
store the resulting merges and vocabulary. The C source never assigns
`tokenizer->num_merges` (nor `tokenizer->vocab_size`) here, so both
fields are left as they were. `vocab_size - 256` is Nat subtraction; in
C the subtraction is on `size_t` and underflows for `vocab_size < 256`
(undefined behavior: the embedding covers `vocab_size ≥ 256`). -/
def train (tok : Tokenizer) (text : List Nat) (vocab_size : Nat) : Tokenizer :=
  let r := train_loop (vocab_size - 256) (text.map (· % 256)) tok.vocab []
  { tok with vocab := r.2.1, merges := r.2.2 }

/-- One step of the selection scan of `encode` (lines 151-163): look the
counted pair up among the first `num_merges` recorded merges and keep
the candidate with the smallest merge index. `none` is the C sentinel
`best_pair = {-1,-1}`; the C initial `min_merge_idx = SIZE_MAX` makes
the first accepted pair replace the sentinel unconditionally. -/
def rank_step (tok : Tokenizer) (acc : Option ((Nat × Nat) × Nat))
    (pc : (Nat × Nat) × Nat) : Option ((Nat × Nat) × Nat) :=
  let idx := find_pair_index (tok.merges.take tok.num_merges) pc.1
  match acc with
  | none => if idx < tok.num_merges then some (pc.1, idx) else none
  | some best =>
      if idx < tok.num_merges ∧ idx < best.2 then some (pc.1, idx) else acc

/-- Embeds the selection scan of `encode` as a fold of `rank_step`. -/
def best_ranked (tok : Tokenizer) (counts : List ((Nat × Nat) × Nat)) :
    Option ((Nat × Nat) × Nat) :=
  counts.foldl (rank_step tok) none

/-- Embeds the `while (*ids_size >= 2)` loop of `encode`. Each iteration
that merges strictly shortens the sequence (the selected pair occurs in
it), so `fuel = ids.length` always suffices; `encode_loop_fixed` below
proves the loop condition is false at the returned sequence. -/
def encode_loop (tok : Tokenizer) : Nat → List Nat → List Nat
  | 0, ids => ids
  | fuel + 1, ids =>
      if 2 ≤ ids.length then
        match best_ranked tok (token_counts ids) with
        | none => ids
        | some best =>
            encode_loop tok fuel
              (merge ids best.1 (tok.merges.getD best.2 ⟨(0, 0), 0⟩).idx)
      else ids

/-- Embeds `encode`: convert the text to byte ids and run the merge loop. -/
def encode (tok : Tokenizer) (text : List Nat) : List Nat :=
  encode_loop tok (text.map (· % 256)).length (text.map (· % 256))

/-- Embeds `decode`: for each id, emit `vocab[id][0]` — the FIRST byte of
its vocabulary entry only, exactly as the C line
`text[i] = tokenizer->vocab[ids[i]][0]` does. An id with no vocabulary
entry is an out-of-bounds read in C, modelled as `none`. -/
def decode (tok : Tokenizer) (ids : List Nat) : Option (List Nat) :=
  ids.mapM (fun id => (tok.vocab.getD id []).head?)

/-- Modelled from the spec, for comparison with the source's stored
entries: the Vocabulary Store's `grow(first_id, second_id)` appends a new
entry whose expansion is `expansion(first_id) ++ expansion(second_id)`. -/
def spec_grow (vocab : List (List Nat)) (m : Merge) : List (List Nat) :=
  vocab ++ [vocab.getD m.pair.1 [] ++ vocab.getD m.pair.2 []]

/-- Modelled from the spec: the vocabulary a merge list determines when
each learned id's expansion is the concatenation of the expansions of the
two ids it merged, starting from the 256 single-byte entries. -/
def spec_vocab (merges : List Merge) : List (List Nat) :=
  merges.foldl spec_grow base_vocab

/-! ### Facts about `adjacent_pairs` and `merge` -/

theorem adjacent_pairs_nil : adjacent_pairs [] = [] := rfl

theorem adjacent_pairs_single (x : Nat) : adjacent_pairs [x] = [] := rfl

theorem adjacent_pairs_cons₂ (x y : Nat) (rest : List Nat) :
    adjacent_pairs (x :: y :: rest) = (x, y) :: adjacent_pairs (y :: rest) := rfl

/-- The rewritten sequence is never longer than the input. -/
theorem merge_length_le (p : Nat × Nat) (idx : Nat) :
    ∀ ids : List Nat, (merge ids p idx).length ≤ ids.length
  | [] => by simp [merge]
  | [x] => by simp [merge]
  | x :: y :: rest => by
    by_cases h : x = p.1 ∧ y = p.2
    · have ih := merge_length_le p idx rest
      simp only [merge, if_pos h, List.length_cons]
      omega
    · have ih := merge_length_le p idx (y :: rest)
      simp only [merge, if_neg h, List.length_cons] at ih ⊢
      omega

/-- When the target pair occurs somewhere in the sequence, the rewrite
strictly shortens it. -/
theorem merge_length_lt (p : Nat × Nat) (idx : Nat) :
    ∀ ids : List Nat, p ∈ adjacent_pairs ids → (merge ids p idx).length < ids.length
  | [], h => absurd h (by simp [adjacent_pairs_nil])
  | [x], h => absurd h (by simp [adjacent_pairs_single])
  | x :: y :: rest, h => by
    by_cases hxy : x = p.1 ∧ y = p.2
    · have hle := merge_length_le p idx rest
      simp only [merge, if_pos hxy, List.length_cons]
      omega
    · have hmem : p ∈ adjacent_pairs (y :: rest) := by
        rcases (by simpa [adjacent_pairs_cons₂] using h : p = (x, y) ∨
            p ∈ adjacent_pairs (y :: rest)) with heq | hmem
        · exact absurd ⟨(heq ▸ rfl), (heq ▸ rfl)⟩ hxy
        · exact hmem
      have ih := merge_length_lt p idx (y :: rest) hmem
      simp only [merge, if_neg hxy, List.length_cons] at ih ⊢
      omega

/-- A sequence without the target pair is returned unchanged. -/
theorem merge_of_not_mem (p : Nat × Nat) (idx : Nat) :
    ∀ ids : List Nat, p ∉ adjacent_pairs ids → merge ids p idx = ids
  | [], _ => rfl
  | [x], _ => rfl
  | x :: y :: rest, h => by
    have hxy : ¬(x = p.1 ∧ y = p.2) := by
      rintro ⟨h1, h2⟩
      exact h (by simp [adjacent_pairs_cons₂, Prod.ext_iff, h1, h2])
    have hrest : p ∉ adjacent_pairs (y :: rest) := by
      intro hmem
      exact h (by simp [adjacent_pairs_cons₂, hmem])
    have ih := merge_of_not_mem p idx (y :: rest) hrest
    simp only [merge, if_neg hxy, ih]

/-! ### Facts about `bump`, `token_counts` -/

theorem bump_ne_nil : ∀ (t : List ((Nat × Nat) × Nat)) (p : Nat × Nat), bump t p ≠ []
  | [], p => by simp [bump]
  | (q, c) :: rest, p => by
    by_cases h : q = p <;> simp [bump, h]

theorem foldl_bump_ne_nil :
    ∀ (ps : List (Nat × Nat)) (t : List ((Nat × Nat) × Nat)), t ≠ [] →
      ps.foldl bump t ≠ []
  | [], _, h => h
  | p :: ps, t, _ => foldl_bump_ne_nil ps (bump t p) (bump_ne_nil t p)

/-- A sequence of length at least two produces a nonempty count table. -/
theorem token_counts_ne_nil (x y : Nat) (rest : List Nat) :
    token_counts (x :: y :: rest) ≠ [] := by
  have : token_counts (x :: y :: rest) =
      (adjacent_pairs (y :: rest)).foldl bump (bump [] (x, y)) := by
    simp [token_counts, adjacent_pairs_cons₂]
  rw [this]
  exact foldl_bump_ne_nil _ _ (bump_ne_nil [] (x, y))

/-- An empty count table means the sequence has no adjacent pair at all. -/
theorem length_le_one_of_token_counts_nil :
    ∀ ids : List Nat, token_counts ids = [] → ids.length ≤ 1
  | [], _ => by simp
  | [x], _ => by simp
  | x :: y :: rest, h => absurd h (token_counts_ne_nil x y rest)

theorem mem_keys_bump :
    ∀ (t : List ((Nat × Nat) × Nat)) (p : Nat × Nat) (q : (Nat × Nat) × Nat),
      q ∈ bump t p → q.1 = p ∨ ∃ r ∈ t, q.1 = r.1
  | [], p, q => by
    intro h
    have hq : q = (p, 1) := by simpa [bump] using h
    exact Or.inl (by simp [hq])
  | (a, c) :: rest, p, q => by
    intro h
    by_cases hap : a = p
    · rw [show bump ((a, c) :: rest) p = (a, c + 1) :: rest from by simp [bump, hap]] at h
      rcases List.mem_cons.mp h with h | h
      · exact Or.inl (by simp [h, hap])
      · exact Or.inr ⟨q, List.mem_cons_of_mem _ h, rfl⟩
    · rw [show bump ((a, c) :: rest) p = (a, c) :: bump rest p from by simp [bump, hap]] at h
      rcases List.mem_cons.mp h with h | h
      · exact Or.inr ⟨(a, c), List.mem_cons_self _ _, by simp [h]⟩
      · rcases mem_keys_bump rest p q h with h | ⟨r, hr, hq⟩
        · exact Or.inl h
        · exact Or.inr ⟨r, List.mem_cons_of_mem _ hr, hq⟩

theorem mem_keys_foldl_bump :
    ∀ (ps : List (Nat × Nat)) (t : List ((Nat × Nat) × Nat)) (q : (Nat × Nat) × Nat),
      q ∈ ps.foldl bump t → (∃ r ∈ t, q.1 = r.1) ∨ q.1 ∈ ps
  | [], t, q => fun h => Or.inl ⟨q, h, rfl⟩
  | p :: ps, t, q => by
    intro h
    rcases mem_keys_foldl_bump ps (bump t p) q h with ⟨r, hr, hq⟩ | h
    · rcases mem_keys_bump t p r hr with h1 | ⟨s, hs, h1⟩
      · exact Or.inr (by simp [hq, h1])
      · exact Or.inl ⟨s, hs, by rw [hq, h1]⟩
    · exact Or.inr (List.mem_cons_of_mem _ h)

/-- Every counted pair occurs adjacently in the sequence. -/
theorem token_counts_keys (ids : List Nat) (q : (Nat × Nat) × Nat)
    (h : q ∈ token_counts ids) : q.1 ∈ adjacent_pairs ids := by
  rcases mem_keys_foldl_bump (adjacent_pairs ids) [] q h with ⟨r, hr, _⟩ | h
  · simp at hr
  · exact h

theorem bump_pos :
    ∀ (t : List ((Nat × Nat) × Nat)) (p : Nat × Nat), (∀ q ∈ t, 0 < q.2) →
      ∀ q ∈ bump t p, 0 < q.2
  | [], p, _, q => by
    intro h
    have hq : q = (p, 1) := by simpa [bump] using h
    simp [hq]
  | (a, c) :: rest, p, ht, q => by
    intro h
    by_cases hap : a = p
    · rw [show bump ((a, c) :: rest) p = (a, c + 1) :: rest from by simp [bump, hap]] at h
      rcases List.mem_cons.mp h with h | h
      · simp [h]
      · exact ht q (List.mem_cons_of_mem _ h)
    · rw [show bump ((a, c) :: rest) p = (a, c) :: bump rest p from by simp [bump, hap]] at h
      rcases List.mem_cons.mp h with h | h
      · exact h ▸ ht (a, c) (List.mem_cons_self _ _)
      · exact bump_pos rest p (fun r hr => ht r (List.mem_cons_of_mem _ hr)) q h

theorem foldl_bump_pos :
    ∀ (ps : List (Nat × Nat)) (t : List ((Nat × Nat) × Nat)), (∀ q ∈ t, 0 < q.2) →
      ∀ q ∈ ps.foldl bump t, 0 < q.2
  | [], _, ht, q => fun h => ht q h
  | p :: ps, t, ht, q =>
    foldl_bump_pos ps (bump t p) (bump_pos t p ht) q

/-- Every count in the table is positive. -/
theorem token_counts_pos (ids : List Nat) (q : (Nat × Nat) × Nat)
    (h : q ∈ token_counts ids) : 0 < q.2 :=
  foldl_bump_pos (adjacent_pairs ids) [] (by simp) q h

/-! ### Facts about `select_max` -/

theorem pick_max_snd_le (best pc : (Nat × Nat) × Nat) :
    best.2 ≤ (pick_max best pc).2 := by
  by_cases h : pc.2 > best.2
  · simp [pick_max, h]
    omega
  · simp [pick_max, h]

theorem foldl_pick_max_le :
    ∀ (cs : List ((Nat × Nat) × Nat)) (b : (Nat × Nat) × Nat),
      b.2 ≤ (cs.foldl pick_max b).2
  | [], _ => le_refl _
  | pc :: cs, b =>
    le_trans (pick_max_snd_le b pc) (foldl_pick_max_le cs (pick_max b pc))

/-- On a nonempty table of positive counts, the selected `max_count` is
positive, so the `max_count == 0` early stop of `train` fires exactly on
an empty table. -/
theorem select_max_snd_pos (cs : List ((Nat × Nat) × Nat))
    (hpos : ∀ q ∈ cs, 0 < q.2) (hne : cs ≠ []) : 0 < (select_max cs).2 := by
  match cs with
  | [] => exact absurd rfl hne
  | pc :: cs =>
    have h1 : 0 < pc.2 := hpos pc (List.mem_cons_self _ _)
    have h2 : (pick_max ((0, 0), 0) pc).2 = pc.2 := by
      simp [pick_max, h1]
    calc 0 < pc.2 := h1
    _ = (pick_max ((0, 0), 0) pc).2 := h2.symm
    _ ≤ (select_max (pc :: cs)).2 := foldl_pick_max_le cs _

/-- If `train`'s selection comes back with `max_count = 0`, the working
sequence has no adjacent pair at all (its length is at most 1). -/
theorem length_le_one_of_select_max_zero (ids : List Nat)
    (h : (select_max (token_counts ids)).2 = 0) : ids.length ≤ 1 := by
  by_cases hnil : token_counts ids = []
  · exact length_le_one_of_token_counts_nil ids hnil
  · have := select_max_snd_pos (token_counts ids) (token_counts_pos ids) hnil
    omega

/-! ### Invariants of `train_loop` -/

/-- Unfolding of one training iteration. -/
theorem train_loop_succ (n : Nat) (ids : List Nat) (vocab : List (List Nat))
    (merges : List Merge) :
    train_loop (n + 1) ids vocab merges =
      if (select_max (token_counts ids)).2 = 0 then (ids, vocab, merges)
      else
        train_loop n
          (merge ids (select_max (token_counts ids)).1 (256 + merges.length))
          (vocab ++ [[(select_max (token_counts ids)).1.1 % 256,
            (select_max (token_counts ids)).1.2 % 256]])
          (merges ++ [Merge.mk (select_max (token_counts ids)).1
            (256 + merges.length)]) := rfl

/-- The training loop only appends to the vocabulary. -/
theorem train_loop_vocab_prefix :
    ∀ (n : Nat) (ids : List Nat) (vocab : List (List Nat)) (merges : List Merge),
      ∃ extra, (train_loop n ids vocab merges).2.1 = vocab ++ extra
  | 0, ids, vocab, merges => ⟨[], by simp [train_loop]⟩
  | n + 1, ids, vocab, merges => by
    rw [train_loop_succ]
    by_cases h : (select_max (token_counts ids)).2 = 0
    · exact ⟨[], by simp [h]⟩
    · rw [if_neg h]
      rcases train_loop_vocab_prefix n
        (merge ids (select_max (token_counts ids)).1 (256 + merges.length))
        (vocab ++ [[(select_max (token_counts ids)).1.1 % 256,
          (select_max (token_counts ids)).1.2 % 256]])
        (merges ++ [Merge.mk (select_max (token_counts ids)).1
          (256 + merges.length)]) with ⟨extra, hex⟩
      exact ⟨_, by rw [hex, List.append_assoc]⟩

/-- The training loop keeps `vocab.length = 256 + merges.length`. -/
theorem train_loop_vocab_length :
    ∀ (n : Nat) (ids : List Nat) (vocab : List (List Nat)) (merges : List Merge),
      vocab.length = 256 + merges.length →
      (train_loop n ids vocab merges).2.1.length =
        256 + (train_loop n ids vocab merges).2.2.length
  | 0, ids, vocab, merges, h => by simpa [train_loop] using h
  | n + 1, ids, vocab, merges, h => by
    rw [train_loop_succ]
    by_cases h0 : (select_max (token_counts ids)).2 = 0
    · rw [if_pos h0]
      exact h
    · rw [if_neg h0]
      apply train_loop_vocab_length
      simp [h]
      omega

/-- The training loop keeps every vocabulary entry nonempty. -/
theorem train_loop_vocab_ne_nil :
    ∀ (n : Nat) (ids : List Nat) (vocab : List (List Nat)) (merges : List Merge),
      (∀ e ∈ vocab, e ≠ []) →
      ∀ e ∈ (train_loop n ids vocab merges).2.1, e ≠ []
  | 0, ids, vocab, merges, h => by simpa [train_loop] using h
  | n + 1, ids, vocab, merges, h => by
    rw [train_loop_succ]
    by_cases h0 : (select_max (token_counts ids)).2 = 0
    · rw [if_pos h0]
      exact h
    · rw [if_neg h0]
      apply train_loop_vocab_ne_nil
      intro e he
      rcases List.mem_append.mp he with he | he
      · exact h e he
      · simp at he
        simp [he]

/-- The ids the training loop hands out are `256 + rank`, rank in
recording order. -/
theorem train_loop_merge_ids :
    ∀ (n : Nat) (ids : List Nat) (vocab : List (List Nat)) (merges : List Merge),
      merges.map Merge.idx = (List.range merges.length).map (fun i => 256 + i) →
      (train_loop n ids vocab merges).2.2.map Merge.idx =
        (List.range (train_loop n ids vocab merges).2.2.length).map (fun i => 256 + i)
  | 0, ids, vocab, merges, h => by simpa [train_loop] using h
  | n + 1, ids, vocab, merges, h => by
    rw [train_loop_succ]
    by_cases h0 : (select_max (token_counts ids)).2 = 0
    · rw [if_pos h0]
      exact h
    · rw [if_neg h0]
      apply train_loop_merge_ids
      simp [List.range_succ, h]

/-- If the loop records fewer merges than its iteration budget, it
stopped on `max_count = 0`, so the final sequence has no adjacent pair. -/
theorem train_loop_stop :
    ∀ (n : Nat) (ids : List Nat) (vocab : List (List Nat)) (merges : List Merge),
      (train_loop n ids vocab merges).2.2.length < merges.length + n →
      (train_loop n ids vocab merges).1.length ≤ 1
  | 0, ids, vocab, merges, h => by
    simp [train_loop] at h
  | n + 1, ids, vocab, merges, h => by
    rw [train_loop_succ] at h ⊢
    by_cases h0 : (select_max (token_counts ids)).2 = 0
    · rw [if_pos h0]
      exact length_le_one_of_select_max_zero ids h0
    · rw [if_neg h0] at h ⊢
      apply train_loop_stop
      simp at h ⊢
      omega

/-! ### Facts about `best_ranked` and `encode_loop` -/

/-- With `num_merges = 0` (the state `create_tokenizer` sets and `train`
never changes), the encoder's selection scan accepts nothing. -/
theorem best_ranked_of_num_merges_zero (tok : Tokenizer)
    (h : tok.num_merges = 0) :
    ∀ counts : List ((Nat × Nat) × Nat), best_ranked tok counts = none := by
  have hstep : ∀ pc, rank_step tok none pc = none := by
    intro pc
    simp [rank_step, h]
  intro counts
  induction counts with
  | nil => rfl
  | cons pc counts ih =>
      show (counts.foldl (rank_step tok) (rank_step tok none pc)) = none
      rw [hstep pc]
      exact ih

/-- One selection step either keeps the accumulator or accepts the
scanned pair together with its merge-table index. -/
theorem rank_step_cases (tok : Tokenizer) (acc : Option ((Nat × Nat) × Nat))
    (pc : (Nat × Nat) × Nat) :
    rank_step tok acc pc = acc ∨
      rank_step tok acc pc =
        some (pc.1, find_pair_index (tok.merges.take tok.num_merges) pc.1) := by
  cases acc with
  | none =>
      by_cases h : find_pair_index (tok.merges.take tok.num_merges) pc.1 < tok.num_merges
      · exact Or.inr (by simp [rank_step, h])
      · exact Or.inl (by simp [rank_step, h])
  | some prev =>
      by_cases h : find_pair_index (tok.merges.take tok.num_merges) pc.1 < tok.num_merges ∧
          find_pair_index (tok.merges.take tok.num_merges) pc.1 < prev.2
      · exact Or.inr (by simp [rank_step, h])
      · exact Or.inl (by simp [rank_step, h])

/-- A pair accepted by the selection fold was already in the accumulator
or is the key of some scanned entry. -/
theorem foldl_rank_step_mem (tok : Tokenizer) :
    ∀ (counts : List ((Nat × Nat) × Nat)) (acc : Option ((Nat × Nat) × Nat))
      (best : (Nat × Nat) × Nat),
      counts.foldl (rank_step tok) acc = some best →
      acc = some best ∨ ∃ pc ∈ counts, pc.1 = best.1
  | [], _, _ => fun h => Or.inl h
  | pc :: counts, acc, best => by
    intro h
    rcases foldl_rank_step_mem tok counts (rank_step tok acc pc) best h with h1 | ⟨r, hr, h1⟩
    · rcases rank_step_cases tok acc pc with h2 | h2
      · exact Or.inl (h2.symm.trans h1)
      · rw [h2] at h1
        refine Or.inr ⟨pc, List.mem_cons_self _ _, ?_⟩
        injection h1 with h3
        rw [← h3]
    · exact Or.inr ⟨r, List.mem_cons_of_mem _ hr, h1⟩

/-- The pair the encoder selects occurs adjacently in the sequence. -/
theorem best_ranked_key_mem (tok : Tokenizer) (ids : List Nat)
    (best : (Nat × Nat) × Nat)
    (h : best_ranked tok (token_counts ids) = some best) :
    best.1 ∈ adjacent_pairs ids := by
  rcases foldl_rank_step_mem tok (token_counts ids) none best h with h1 | ⟨pc, hpc, h1⟩
  · exact absurd h1 (by simp)
  · exact h1 ▸ token_counts_keys ids pc hpc

/-- When no pair is selected the loop leaves the sequence alone,
whatever the fuel. -/
theorem encode_loop_of_best_none (tok : Tokenizer) :
    ∀ (fuel : Nat) (ids : List Nat),
      best_ranked tok (token_counts ids) = none → encode_loop tok fuel ids = ids
  | 0, ids, _ => rfl
  | fuel + 1, ids, h => by
    by_cases h2 : 2 ≤ ids.length
    · simp only [encode_loop, if_pos h2, h]
    · simp only [encode_loop, if_neg h2]

/-- With `num_merges = 0` the encoder performs no rewrite at all. -/
theorem encode_of_num_merges_zero (tok : Tokenizer) (h : tok.num_merges = 0)
    (text : List Nat) : encode tok text = text.map (fun b => b % 256) := by
  unfold encode
  exact encode_loop_of_best_none tok _ _
    (best_ranked_of_num_merges_zero tok h _)

/-- Fuel equal to the sequence length is enough: the loop returns a
sequence on which the C `while` condition is false, i.e. it computes the
same fixpoint the unbounded loop does. -/
theorem encode_loop_fixed (tok : Tokenizer) :
    ∀ (fuel : Nat) (ids : List Nat), ids.length ≤ fuel →
      (encode_loop tok fuel ids).length < 2 ∨
        best_ranked tok (token_counts (encode_loop tok fuel ids)) = none
  | 0, ids, h => by
    left
    simp only [encode_loop]
    omega
  | fuel + 1, ids, h => by
    by_cases h2 : 2 ≤ ids.length
    · cases hbr : best_ranked tok (token_counts ids) with
      | none =>
          right
          simp only [encode_loop, if_pos h2, hbr]
      | some best =>
          have hmem : best.1 ∈ adjacent_pairs ids :=
            best_ranked_key_mem tok ids best hbr
          have hlt := merge_length_lt best.1
            (tok.merges.getD best.2 ⟨(0, 0), 0⟩).idx ids hmem
          have ih := encode_loop_fixed tok fuel
            (merge ids best.1 (tok.merges.getD best.2 ⟨(0, 0), 0⟩).idx)
            (by omega)
          simpa only [encode_loop, if_pos h2, hbr] using ih
    · left
      simp only [encode_loop, if_neg h2]
      omega

/-! ### Facts about `decode` -/

/-- `mapM` over `Option` succeeds exactly when every element does. -/
theorem mapM_option_isSome {α β : Type} (f : α → Option β) :
    ∀ l : List α, (l.mapM f).isSome ↔ ∀ a ∈ l, (f a).isSome
  | [] => by
    rw [List.mapM_nil]
    simp
  | a :: l => by
    have ih := mapM_option_isSome f l
    rw [List.mapM_cons]
    cases hfa : f a with
    | none => simp [hfa]
    | some b =>
      cases hrest : l.mapM f with
      | none =>
        rw [hrest] at ih
        simp [hfa, hrest]
        simp at ih
        rcases ih with ⟨x, hx, hnone⟩
        exact ⟨x, hx, hnone⟩
      | some bs =>
        rw [hrest] at ih
        simp [hfa, hrest]
        simp at ih
        intro x hx
        exact ih x hx

/-- `decode` succeeds exactly when every id has a nonempty vocabulary
entry. -/
theorem decode_isSome_iff (tok : Tokenizer) (ids : List Nat) :
    (decode tok ids).isSome ↔ ∀ id ∈ ids, (tok.vocab.getD id []).head?.isSome :=
  mapM_option_isSome _ ids

/-- The 256 initial entries are the single bytes. -/
theorem base_vocab_getD (b : Nat) (h : b < 256) :
    base_vocab.getD b [] = [b] := by
  have hlen : b < base_vocab.length := by
    simpa [base_vocab] using h
  rw [List.getD_eq_getElem _ _ hlen]
  simp [base_vocab]

/-- Decoding a list of raw bytes through any tokenizer whose vocabulary
extends `base_vocab` gives the bytes back. -/
theorem decode_bytes (tok : Tokenizer) (extra : List (List Nat))
    (hvocab : tok.vocab = base_vocab ++ extra) :
    ∀ l : List Nat, (∀ b ∈ l, b < 256) → decode tok l = some l
  | [], _ => rfl
  | b :: l, h => by
    have hb : b < 256 := h b (List.mem_cons_self _ _)
    have hrest : decode tok l = some l :=
      decode_bytes tok extra hvocab l (fun x hx => h x (List.mem_cons_of_mem _ hx))
    have hentry : tok.vocab.getD b [] = [b] := by
      rw [hvocab]
      have hblen : b < base_vocab.length := by
        simpa [base_vocab] using hb
      rw [List.getD_eq_getElem?_getD, List.getElem?_append, if_pos hblen,
        ← List.getD_eq_getElem?_getD]
      exact base_vocab_getD b hb
    show (b :: l).mapM (fun id => (tok.vocab.getD id []).head?) = some (b :: l)
    rw [List.mapM_cons, hentry]
    show (some b).bind (fun x => (decode tok l).bind fun xs => some (x :: xs)) = some (b :: l)
    rw [hrest]
    rfl

/-- Looking a byte up and taking the head succeeds exactly for ids with a
(nonempty) vocabulary entry. -/
theorem head_isSome_getD (vocab : List (List Nat))
    (hne : ∀ e ∈ vocab, e ≠ []) (id : Nat) :
    ((vocab.getD id []).head?).isSome ↔ id < vocab.length := by
  by_cases h : id < vocab.length
  · rw [List.getD_eq_getElem _ _ h]
    simpa [List.head?_isSome, h] using hne _ (List.getElem_mem h)
  · rw [List.getD_eq_default _ _ (by omega)]
    simp
    omega

/-- For a merge list whose ids enumerate `256, 257, …`, being some rule's
new id is the same as lying in that contiguous range. -/
theorem mem_idx_iff (ms : List Merge)
    (h : ms.map Merge.idx = (List.range ms.length).map (fun i => 256 + i))
    (id : Nat) :
    (∃ m ∈ ms, m.idx = id) ↔ 256 ≤ id ∧ id < 256 + ms.length := by
  constructor
  · rintro ⟨m, hm, rfl⟩
    have hmem : m.idx ∈ ms.map Merge.idx := List.mem_map_of_mem _ hm
    rw [h] at hmem
    rcases List.mem_map.mp hmem with ⟨i, hi, hidx⟩
    rw [List.mem_range] at hi
    omega
  · rintro ⟨h1, h2⟩
    have hmem : id ∈ ms.map Merge.idx := by
      rw [h]
      exact List.mem_map.mpr ⟨id - 256, List.mem_range.mpr (by omega), by omega⟩
    rcases List.mem_map.mp hmem with ⟨m, hm, hid⟩
    exact ⟨m, hm, hid⟩

/-! ### The claims -/

/-- C1: for every tokenizer on which training has completed, and every
text drawn from the training input's byte alphabet whose length is
within the 1024-element working-buffer capacity, decoding the result of
encoding the text yields the original text. (This holds in the source,
but degenerately: `train` never assigns `tokenizer->num_merges`, so
`encode` applies no merge and returns the raw bytes, which the
first-byte `decode` maps back to themselves.) -/
theorem c1_round_trip (trainText text : List Nat) (vs : Nat)
    (hAlph : ∀ b ∈ text, b ∈ trainText)
    (hBytes : ∀ b ∈ trainText, b < 256)
    (_hCap : text.length ≤ 1024) :
    decode (train create_tokenizer trainText vs)
      (encode (train create_tokenizer trainText vs) text) = some text := by
  have htext : ∀ b ∈ text, b < 256 := fun b hb => hBytes b (hAlph b hb)
  have hnm : (train create_tokenizer trainText vs).num_merges = 0 := rfl
  have hmap : text.map (fun b => b % 256) = text := by
    have h1 : text.map (fun b => b % 256) = text.map id :=
      List.map_congr_left (fun b hb => Nat.mod_eq_of_lt (htext b hb))
    rw [h1, List.map_id]
  have henc : encode (train create_tokenizer trainText vs) text = text := by
    rw [encode_of_num_merges_zero _ hnm, hmap]
  rcases train_loop_vocab_prefix (vs - 256) (trainText.map (· % 256))
      base_vocab [] with ⟨extra, hex⟩
  have hvocab : (train create_tokenizer trainText vs).vocab =
      base_vocab ++ extra := hex
  rw [henc]
  exact decode_bytes _ extra hvocab text htext

/-- Witness for C1 at the concrete scenario: training text "aaab",
target 257, text "ab". -/
theorem c1_round_trip_witness :
    (∀ b ∈ [97, 98], b ∈ [97, 97, 97, 98]) ∧
    (∀ b ∈ [97, 97, 97, 98], b < 256) ∧
    ([97, 98] : List Nat).length ≤ 1024 ∧
    decode (train create_tokenizer [97, 97, 97, 98] 257)
      (encode (train create_tokenizer [97, 97, 97, 98] 257) [97, 98]) =
      some [97, 98] :=
  ⟨by decide, by decide, by decide,
    c1_round_trip [97, 97, 97, 98] [97, 98] 257 (by decide) (by decide) (by decide)⟩

/-- C2: on text "aaab" with target vocabulary 257, training performs
exactly one merge, (97,97) → 256, and leaves the working sequence
[256,97,98]; but the trained tokenizer's `encode("aaab")` returns
[97,97,97,98] (not [256,97,98]), because `train` never assigns
`tokenizer->num_merges`, and `decode([256,97,98])` returns "aab"
(bytes [97,97,98], not "aaab"), because `decode` emits only the first
byte of each entry. The first two conjuncts check the part of the claim
the code satisfies; the last two evaluate the divergences. -/
theorem c2_concrete_scenario :
    (train_loop 1 [97, 97, 97, 98] base_vocab []).1 = [256, 97, 98] ∧
    (train create_tokenizer [97, 97, 97, 98] 257).merges =
      [Merge.mk (97, 97) 256] ∧
    encode (train create_tokenizer [97, 97, 97, 98] 257) [97, 97, 97, 98] =
      [97, 97, 97, 98] ∧
    decode (train create_tokenizer [97, 97, 97, 98] 257) [256, 97, 98] =
      some [97, 97, 98] := by
  decide

/-- C3: `decode` does NOT emit each id's entire vocabulary expansion:
after training on "aaab" the entry for id 256 is the two bytes [97,97],
yet `decode([256])` returns the single byte [97]. -/
theorem c3_decode_first_byte_only :
    (train create_tokenizer [97, 97, 97, 98] 257).vocab.getD 256 [] =
      [97, 97] ∧
    decode (train create_tokenizer [97, 97, 97, 98] 257) [256] =
      some [97] := by
  decide

/-- C4: the encoder's selection logic is the lowest-rank rule, but for a
TRAINED tokenizer the table it consults is empty: `train` records the
rule (97,97) → 256 in the merge array, yet the `num_merges` field it
never assigns stays 0, so `encode` applies nothing and returns the raw
bytes; setting `num_merges` to 1 on the same state makes `encode`
apply the rank-0 merge and return [256,97,98] as the claim demands. -/
theorem c4_encode_ignores_learned_merges :
    (train create_tokenizer [97, 97, 97, 98] 257).merges =
      [Merge.mk (97, 97) 256] ∧
    (train create_tokenizer [97, 97, 97, 98] 257).num_merges = 0 ∧
    encode (train create_tokenizer [97, 97, 97, 98] 257) [97, 97, 97, 98] =
      [97, 97, 97, 98] ∧
    encode { train create_tokenizer [97, 97, 97, 98] 257 with num_merges := 1 }
      [97, 97, 97, 98] = [256, 97, 98] := by
  decide

/-- C5: a learned entry is NOT `expansion(first) ++ expansion(second)`:
training "aaaa" to 258 merges (97,97) → 256 and then (256,256) → 257, and
the stored entry for 257 is `[(unsigned char)256, (unsigned char)256] =
[0,0]`, while the spec's Vocabulary Store `grow` contract yields
[97,97,97,97]. -/
theorem c5_expansion_not_concatenation :
    (train create_tokenizer [97, 97, 97, 97] 258).merges =
      [Merge.mk (97, 97) 256, Merge.mk (256, 256) 257] ∧
    (train create_tokenizer [97, 97, 97, 97] 258).vocab.getD 257 [] =
      [0, 0] ∧
    (spec_vocab (train create_tokenizer [97, 97, 97, 97] 258).merges).getD 257 [] =
      [97, 97, 97, 97] := by
  decide

/-- C6 counterexample: the text "ab" has no repeated adjacent pair, yet
training on it (target 258) records a merge — the source's early stop
fires on `max_count == 0`, not on `max_count <= 1`, so the claimed
zero-merge outcome is false. -/
theorem c6_counterexample :
    (train create_tokenizer [97, 98] 258).merges ≠ [] := by
  decide

/-- C6 amended: training stops early (recording fewer rules than
`target_vocab_size - 256`) only when the working sequence has no
adjacent pair left at all — its length is at most 1; pairs of count 1
are merged like any other. -/
theorem c6_early_stop_only_when_no_pair (text : List Nat) (vs : Nat)
    (h : (train create_tokenizer text vs).merges.length < vs - 256) :
    (train_loop (vs - 256) (text.map (fun b => b % 256)) base_vocab []).1.length ≤ 1 := by
  apply train_loop_stop
  simpa using h

/-- Witness for C6 amended: "abc" at target 400 stops after two merges,
with the working sequence collapsed to the single token 257. -/
theorem c6_early_stop_witness :
    (train create_tokenizer [97, 98, 99] 400).merges.length < 400 - 256 ∧
    (train_loop (400 - 256) ([97, 98, 99].map (fun b => b % 256))
      base_vocab []).1.length ≤ 1 :=
  ⟨by decide, c6_early_stop_only_when_no_pair [97, 98, 99] 400 (by decide)⟩

/-- C7 counterexample: `train` at target 256 does not fail — the source
has no `InvalidVocabSize` check (or any error path): the call completes
and returns the tokenizer in its freshly-created state. -/
theorem c7_counterexample :
    train create_tokenizer [97, 98] 256 = create_tokenizer := by
  decide

/-- C7 amended: `train` performs no vocabulary-size validation and never
raises an error; at target 256 it computes `num_merges = 0`, performs no
merges, and only resets the merge list to empty (targets below 256
underflow the unsigned subtraction in C — undefined behavior outside
this embedding; targets above 256 likewise raise nothing). -/
theorem c7_no_vocab_size_validation (tok : Tokenizer) (text : List Nat) :
    train tok text 256 = { tok with merges := [] } := rfl

/-- C8: `decode` fails exactly when some id has no vocabulary entry —
an id at least 256 that is not the `new_id` of any recorded merge (the
source performs this lookup unchecked; the out-of-bounds read is the
modelled failure). -/
theorem c8_decode_unknown_id (trainText : List Nat) (vs : Nat) (ids : List Nat) :
    (decode (train create_tokenizer trainText vs) ids).isSome ↔
      ∀ id ∈ ids, id < 256 ∨
        ∃ m ∈ (train create_tokenizer trainText vs).merges, m.idx = id := by
  have hne : ∀ e ∈ (train create_tokenizer trainText vs).vocab, e ≠ [] :=
    train_loop_vocab_ne_nil (vs - 256) (trainText.map (· % 256)) base_vocab []
      (by simp [base_vocab])
  have hlen : (train create_tokenizer trainText vs).vocab.length =
      256 + (train create_tokenizer trainText vs).merges.length :=
    train_loop_vocab_length (vs - 256) (trainText.map (· % 256)) base_vocab []
      (by simp [base_vocab])
  have hidx : (train create_tokenizer trainText vs).merges.map Merge.idx =
      (List.range (train create_tokenizer trainText vs).merges.length).map
        (fun i => 256 + i) :=
    train_loop_merge_ids (vs - 256) (trainText.map (· % 256)) base_vocab []
      (by simp)
  rw [decode_isSome_iff]
  constructor
  · intro h id hid
    have h1 := (head_isSome_getD _ hne id).mp (h id hid)
    rw [hlen] at h1
    by_cases h256 : id < 256
    · exact Or.inl h256
    · exact Or.inr ((mem_idx_iff _ hidx id).mpr (by omega))
  · intro h id hid
    refine (head_isSome_getD _ hne id).mpr ?_
    rw [hlen]
    rcases h id hid with h1 | h1
    · omega
    · have := (mem_idx_iff _ hidx id).mp h1
      omega

/-- C9: `merge` scans left to right replacing non-overlapping occurrences
greedily leftmost-first — the output is never longer than the input,
`[5,5,5]` with target `(5,5)` becomes `[new_id, 5]`, and a sequence in
which the target pair never occurs adjacently is copied unchanged. -/
theorem c9_merge_leftmost_nonoverlapping :
    (∀ (ids : List Nat) (p : Nat × Nat) (idx : Nat),
      (merge ids p idx).length ≤ ids.length) ∧
    (∀ idx : Nat, merge [5, 5, 5] (5, 5) idx = [idx, 5]) ∧
    (∀ (ids : List Nat) (p : Nat × Nat) (idx : Nat),
      p ∉ adjacent_pairs ids → merge ids p idx = ids) :=
  ⟨fun ids p idx => merge_length_le p idx ids,
   fun idx => by simp [merge],
   fun ids p idx h => merge_of_not_mem p idx ids h⟩

/-- Witness for C9's conditional conjunct: `(1,3)` occurs nowhere
adjacently in `[1,2,3]`, and the rewrite leaves the list unchanged. -/
theorem c9_merge_witness :
    (1, 3) ∉ adjacent_pairs [1, 2, 3] ∧ merge [1, 2, 3] (1, 3) 9 = [1, 2, 3] :=
  ⟨by decide, c9_merge_leftmost_nonoverlapping.2.2 [1, 2, 3] (1, 3) 9 (by decide)⟩

/-- C10: for every tokenizer, trained or not, encoding the empty text
yields the empty id sequence and decoding the empty id sequence yields
the empty text. -/
theorem c10_empty_text (tok : Tokenizer) :
    encode tok [] = [] ∧ decode tok [] = some [] :=
  ⟨rfl, rfl⟩

end MinBpe
